import Mathlib

/-!
Shallow embedding of `ORB_SLAM3/Examples/Monocular/mono_aqualoc.cc`
(the AQUALOC monocular frame-replay driver).

Modelling choices:
* a text file is a `List (List Char)` of lines (what successive
  `getline` calls return), wrapped in `Option` so that `none` models a
  file that cannot be opened;
* C++ `double` and `float` values (timestamps, measured durations, the
  image scale) are modelled as exact rationals `ℚ`;
* a decoded `cv::Mat` is modelled by its pixel dimensions; `cv::imread`
  is an oracle `List Char → Option Image` where `none` models an empty
  (failed) decode;
* the effectful body of `main` is modelled as a function producing an
  event trace (engine construction, per-frame `TrackMonocular` calls,
  `usleep` suspensions, `Shutdown`, the two trajectory exports), the
  process exit code, the reported timing statistics, and the lines
  written to the error stream.
-/

namespace MonoAqualoc

/-- Whitespace characters skipped by `std::istream` formatted extraction
in the classic locale: space, tab, newline, vertical tab, form feed,
carriage return. -/
def isWS (c : Char) : Bool :=
  c = ' ' || c = '\t' || c = '\n' || c = '\x0b' || c = '\x0c' || c = '\r'

/-- Skip leading stream whitespace. -/
def dropWS (cs : List Char) : List Char := cs.dropWhile isWS

/-- Scan a maximal run of decimal digits: returns (digits, rest). -/
def scanDigits (cs : List Char) : List Char × List Char :=
  (cs.takeWhile Char.isDigit, cs.dropWhile Char.isDigit)

/-- Numeric value of a digit string (most significant first). -/
def digitsVal (ds : List Char) : ℕ :=
  ds.foldl (fun a c => 10 * a + (c.toNat - 48)) 0

/-- Scan an optional leading sign, returning the sign and the rest. -/
def scanSign (cs : List Char) : ℚ × List Char :=
  match cs with
  | [] => (1, [])
  | c :: r => if c = '-' then (-1, r) else if c = '+' then (1, r) else (1, c :: r)

/-- Scan an optional fractional part `.d*` (the dot alone is consumed,
as in `strtod`): returns the fraction digits and the rest. -/
def scanFrac (cs : List Char) : List Char × List Char :=
  match cs with
  | [] => ([], [])
  | c :: r => if c = '.' then scanDigits r else ([], c :: r)

/-- Scan an optional sign inside an exponent, returning it as an
integer unit. -/
def scanSignInt (cs : List Char) : ℤ × List Char :=
  match cs with
  | [] => (1, [])
  | c :: r => if c = '-' then (-1, r) else if c = '+' then (1, r) else (1, c :: r)

/-- Scan an optional exponent part `e[+-]d+` / `E[+-]d+`.  When an `e`
or `E` is present but not followed by at least one (optionally signed)
digit, the stream scanner has already accumulated the `e` into the
numeric field and the entire-field conversion then fails, so the whole
extraction fails — signalled here by `none` (there is no `strtod`-style
rollback in `istream` extraction). -/
def scanExp (cs : List Char) : Option (ℤ × List Char) :=
  match cs with
  | [] => some (0, [])
  | c :: r =>
    if c = 'e' ∨ c = 'E' then
      let sr := scanSignInt r
      let dsr := scanDigits sr.2
      if dsr.1.isEmpty then none else some (sr.1 * (digitsVal dsr.1 : ℤ), dsr.2)
    else some (0, c :: r)

/-- Model of `istream >> t` for a C++ `double` (the `ss >> t` in
`LoadImages`): skip whitespace, then scan a decimal floating-point
field (optional sign, digits with an optional decimal point — at least
one digit overall — and an optional exponent).  On success, return the
exact rational value and the unconsumed rest of the stream.  Extraction
fails (`none`, modelling `failbit`) when no digit is found, and also
when an exponent marker `e`/`E` is accumulated without following
digits: the accumulated field then does not convert in its entirety, so
`num_get` reports failure rather than rolling back to the prefix. -/
def extractDouble (cs0 : List Char) : Option (ℚ × List Char) :=
  let cs := dropWS cs0
  let sg := scanSign cs
  let ip := scanDigits sg.2
  let fp := scanFrac ip.2
  if ip.1.isEmpty && fp.1.isEmpty then none
  else
    match scanExp fp.2 with
    | none => none
    | some ex =>
      some (sg.1 * ((digitsVal ip.1 : ℚ) + (digitsVal fp.1 : ℚ) / (10 : ℚ) ^ fp.1.length)
              * (10 : ℚ) ^ ex.1, ex.2)

/-- Model of `istream >> s` for a `std::string` (the `ss >> sRGB` in
`LoadImages`): skip whitespace, then read a maximal run of
non-whitespace characters.  Returns (token, rest). -/
def extractString (cs : List Char) : List Char × List Char :=
  let cs1 := dropWS cs
  (cs1.takeWhile (fun c => !(isWS c)), cs1.dropWhile (fun c => !(isWS c)))

/-- The first whitespace-delimited token of a line. -/
def firstToken (cs : List Char) : List Char := (extractString cs).1

/-- What remains of a line after its first whitespace-delimited token. -/
def afterFirstToken (cs : List Char) : List Char := (extractString cs).2

/-- The second whitespace-delimited token of a line. -/
def secondToken (cs : List Char) : List Char := firstToken (afterFirstToken cs)

/-- A token parses (in full) as a floating-point literal. -/
def parsesAsDouble (tok : List Char) : Bool :=
  match extractDouble tok with
  | some p => p.2.isEmpty
  | none => false

/-- The value a token parses to (0 when extraction fails, as for a C++
stream extraction into a value-initialised `double`). -/
def doubleVal (tok : List Char) : ℚ :=
  match extractDouble tok with
  | some p => p.1
  | none => 0

/-- The `sRGB` string obtained from a line by `ss >> t; ss >> sRGB`:
if the numeric extraction fails the stream is in a failed state and the
string extraction leaves `sRGB` empty; otherwise `sRGB` is the next
whitespace-delimited token after the consumed number. -/
def extractedPath (cs : List Char) : List Char :=
  match extractDouble cs with
  | none => []
  | some p => (extractString p.2).1

/-- One iteration of the `while(!fAssociation.eof())` body of
`LoadImages` on a line `s`: skip if the line is empty or starts with
`#`; otherwise extract `t` and `sRGB` and keep the pair only when
`sRGB` is non-empty (a failed numeric extraction leaves `sRGB` empty,
so such a line is also dropped). -/
def processLine : List Char → Option (ℚ × List Char)
  | [] => none
  | c :: rest =>
    if c = '#' then none
    else
      match extractDouble (c :: rest) with
      | none => none
      | some p =>
        let sRGB := (extractString p.2).1
        if sRGB.isEmpty then none else some (p.1, sRGB)

/-- The line loop of `LoadImages`: build the two parallel vectors
`vTimestamps` and `vstrImageFilenames` in file order. -/
def loadImagesLoop : List (List Char) → List ℚ × List (List Char)
  | [] => ([], [])
  | l :: ls =>
    match processLine l with
    | none => loadImagesLoop ls
    | some e =>
      let r := loadImagesLoop ls
      (e.1 :: r.1, e.2 :: r.2)

/-- `LoadImages`: `none` models an association file that cannot be
opened (`!fAssociation.is_open()`), in which case the function returns
with both output vectors still empty. -/
def LoadImages (assoc : Option (List (List Char))) : List ℚ × List (List Char) :=
  match assoc with
  | none => ([], [])
  | some ls => loadImagesLoop ls

/-- A decoded image, modelled by its dimensions (`im.rows`, `im.cols`). -/
structure Image where
  rows : ℕ
  cols : ℕ
deriving DecidableEq, Repr

/-- Truncation toward zero, the C++ conversion from a floating value to
`int` (`int width = im.cols * imageScale`). -/
def truncInt (q : ℚ) : ℤ := if 0 ≤ q then ⌊q⌋ else ⌈q⌉

/-- `cv::resize(im, im, cv::Size(width, height))` with
`width = im.cols * imageScale` and `height = im.rows * imageScale`. -/
def resizeIm (im : Image) (scale : ℚ) : Image :=
  { rows := (truncInt ((im.rows : ℚ) * scale)).toNat
    cols := (truncInt ((im.cols : ℚ) * scale)).toNat }

/-- Observable actions of the driver, in program order: engine
construction, one `TrackMonocular` call per frame, a `usleep`
suspension (amount in seconds), `Shutdown`, and the two trajectory
exports. -/
inductive Event where
  | engineStart
  | track (i : ℕ) (timestamp : ℚ) (im : Image)
  | sleep (amount : ℚ)
  | shutdown
  | saveKeyFrameTrajectory
  | saveCameraTrajectory
deriving DecidableEq, Repr

/-- Result of one driver run: the event trace, the process exit code,
the reported (median, mean) tracking-time statistics when the run
reaches them, and the lines written to `cerr`. -/
structure RunResult where
  trace : List Event
  exitCode : ℕ
  stats : Option (ℚ × ℚ)
  stderrLines : List (List Char)
deriving DecidableEq, Repr

/-- Message written by `LoadImages` when the association file cannot be
opened. -/
def msgCannotOpen (name : List Char) : List Char :=
  "ERROR: Cannot open association file: ".toList ++ name

/-- Message written by `main` when no images were loaded. -/
def msgNoImages : List Char :=
  "ERROR: No images found in association file.".toList

/-- Message written by `main` when an image fails to decode. -/
def msgFailedLoad (path : List Char) : List Char :=
  "Failed to load image at: ".toList ++ path

/-- The main loop of `main`, from iteration `i` with `k` iterations
remaining (`k = nImages - i` at the call site).  `imread` is the
decoding oracle, `dur i` the measured `ttrack` of iteration `i`.
Returns the events of the executed iterations and, when some image
failed to decode, the failing path (the loop aborted there).  Each
iteration: decode (`none` aborts the run), resize when
`imageScale != 1`, one `TrackMonocular` event, then the pacing: the
target `T` is `vTimestamps[ni+1] - tframe` when `ni < nImages - 1`,
else `tframe - vTimestamps[ni-1]` when `ni > 0`, else `0`, and a
`usleep` of `T - ttrack` seconds happens exactly when `ttrack < T`. -/
def runFrom (n : ℕ) (files : List (List Char)) (ts : List ℚ)
    (imread : List Char → Option Image) (scale : ℚ) (dur : ℕ → ℚ) :
    ℕ → ℕ → List Event × Option (List Char)
  | _, 0 => ([], none)
  | i, k + 1 =>
    match imread (files.getD i []) with
    | none => ([], some (files.getD i []))
    | some im0 =>
      let im := if scale ≠ 1 then resizeIm im0 scale else im0
      let tframe := ts.getD i 0
      let ttrack := dur i
      let T : ℚ :=
        if i < n - 1 then ts.getD (i + 1) 0 - tframe
        else if 0 < i then tframe - ts.getD (i - 1) 0
        else 0
      let rest := runFrom n files ts imread scale dur (i + 1) k
      (Event.track i tframe im ::
        ((if ttrack < T then [Event.sleep (T - ttrack)] else []) ++ rest.1), rest.2)

/-- The driver `main` (after the `argc` check): load the manifest,
reject an empty one with exit code 1 before the engine is constructed,
otherwise run the loop; on a decode failure exit 1 immediately (no
shutdown, no exports); on success shut down, sort the timing samples
ascending, report `vTimesTrack[nImages / 2]` as the median and
`totaltime / nImages` as the mean, and export both trajectories. -/
def mainRun (assocName : List Char) (assoc : Option (List (List Char)))
    (imread : List Char → Option Image) (scale : ℚ) (dur : ℕ → ℚ) : RunResult :=
  let loaded := LoadImages assoc
  let openErr : List (List Char) :=
    if assoc.isNone then [msgCannotOpen assocName] else []
  let nImages := loaded.2.length
  if nImages ≤ 0 then
    { trace := [], exitCode := 1, stats := none, stderrLines := openErr ++ [msgNoImages] }
  else
    match runFrom nImages loaded.2 loaded.1 imread scale dur 0 nImages with
    | (events, some badPath) =>
      { trace := Event.engineStart :: events, exitCode := 1, stats := none
        stderrLines := openErr ++ [msgFailedLoad badPath] }
    | (events, none) =>
      let vTimesTrack := (List.range nImages).map dur
      let sorted := List.insertionSort (fun a b => a ≤ b) vTimesTrack
      let totaltime := sorted.foldl (fun a b => a + b) 0
      { trace := Event.engineStart :: events ++
          [Event.shutdown, Event.saveKeyFrameTrajectory, Event.saveCameraTrajectory]
        exitCode := 0
        stats := some (sorted.getD (nImages / 2) 0, totaltime / (nImages : ℚ))
        stderrLines := openErr }

/-! ### Whitespace facts -/

theorem isWS_not_special (c : Char) (h : isWS c = true) :
    c.isDigit = false ∧ c ≠ '.' ∧ c ≠ 'e' ∧ c ≠ 'E' ∧ c ≠ '+' ∧ c ≠ '-' ∧ c ≠ '#' := by
  simp only [isWS, Bool.or_eq_true, decide_eq_true_eq] at h
  rcases h with ((((h | h) | h) | h) | h) | h <;> subst h <;>
    exact ⟨by decide, by decide, by decide, by decide, by decide, by decide, by decide⟩

/-! ### Generic takeWhile / dropWhile append lemmas -/

theorem takeWhile_append_head {α : Type} (p : α → Bool) (x s : List α)
    (hs : ∀ c, s.head? = some c → p c = false) :
    (x ++ s).takeWhile p = x.takeWhile p := by
  induction x with
  | nil =>
    cases s with
    | nil => rfl
    | cons c cs =>
      simp [List.takeWhile_cons, hs c rfl]
  | cons a x ih =>
    by_cases h : p a
    · simp [List.takeWhile_cons, h, ih]
    · simp [List.takeWhile_cons, h]

theorem dropWhile_append_head {α : Type} (p : α → Bool) (x s : List α)
    (hs : ∀ c, s.head? = some c → p c = false) :
    (x ++ s).dropWhile p = x.dropWhile p ++ s := by
  induction x with
  | nil =>
    cases s with
    | nil => rfl
    | cons c cs =>
      simp [List.dropWhile_cons, hs c rfl]
  | cons a x ih =>
    by_cases h : p a
    · simp [List.dropWhile_cons, h, ih]
    · simp [List.dropWhile_cons, h]

theorem head_takeWhile_true {α : Type} (p : α → Bool) (x : List α) (c : α)
    (h : (x.takeWhile p).head? = some c) : p c = true := by
  induction x with
  | nil => simp at h
  | cons a x ih =>
    by_cases hp : p a
    · simp [List.takeWhile_cons, hp] at h
      exact h ▸ hp
    · simp [List.takeWhile_cons, hp] at h

theorem head_dropWhile_false {α : Type} (p : α → Bool) (x : List α) (c : α)
    (h : (x.dropWhile p).head? = some c) : p c = false := by
  induction x with
  | nil =>
    simp at h
  | cons a x ih =>
    by_cases hp : p a
    · simp only [List.dropWhile_cons, hp, if_pos] at h
      exact ih h
    · simp only [List.dropWhile_cons, if_neg hp, List.head?_cons, Option.some.injEq] at h
      subst h
      exact Bool.eq_false_iff.mpr hp

/-! ### Append stability of the numeric scanner -/

theorem scanDigits_append (x s : List Char)
    (hs : ∀ c, s.head? = some c → c.isDigit = false) :
    scanDigits (x ++ s) = ((scanDigits x).1, (scanDigits x).2 ++ s) := by
  unfold scanDigits
  rw [takeWhile_append_head _ _ _ hs, dropWhile_append_head _ _ _ hs]

theorem scanSign_append (x s : List Char) (hx : x ≠ []) :
    scanSign (x ++ s) = ((scanSign x).1, (scanSign x).2 ++ s) := by
  cases x with
  | nil => exact absurd rfl hx
  | cons c r =>
    simp only [List.cons_append, scanSign]
    split_ifs <;> rfl

theorem scanSignInt_append (x s : List Char) (hx : x ≠ []) :
    scanSignInt (x ++ s) = ((scanSignInt x).1, (scanSignInt x).2 ++ s) := by
  cases x with
  | nil => exact absurd rfl hx
  | cons c r =>
    simp only [List.cons_append, scanSignInt]
    split_ifs <;> rfl

theorem scanFrac_append (x s : List Char)
    (hs : ∀ c, s.head? = some c → isWS c = true) :
    scanFrac (x ++ s) = ((scanFrac x).1, (scanFrac x).2 ++ s) := by
  have hd : ∀ c, s.head? = some c → c.isDigit = false :=
    fun c hc => (isWS_not_special c (hs c hc)).1
  cases x with
  | nil =>
    cases s with
    | nil => rfl
    | cons c cs =>
      have := (isWS_not_special c (hs c rfl)).2.1
      simp [scanFrac, this]
  | cons c r =>
    by_cases h : c = '.'
    · subst h
      simp only [List.cons_append, scanFrac, if_pos rfl]
      exact scanDigits_append r s hd
    · simp [scanFrac, h]

theorem scanExp_cons_e (c : Char) (r : List Char) (hce : c = 'e' ∨ c = 'E') :
    scanExp (c :: r) =
      if (scanDigits (scanSignInt r).2).1.isEmpty then none
      else some ((scanSignInt r).1 * (digitsVal (scanDigits (scanSignInt r).2).1 : ℤ),
        (scanDigits (scanSignInt r).2).2) := by
  rcases hce with rfl | rfl <;> simp [scanExp]

theorem scanExp_cons_ne (c : Char) (r : List Char) (h : ¬(c = 'e' ∨ c = 'E')) :
    scanExp (c :: r) = some (0, c :: r) := by
  simp [scanExp, h]

theorem scanExp_append (x s : List Char)
    (hs : ∀ c, s.head? = some c → isWS c = true) :
    scanExp (x ++ s) = Option.map (fun p => (p.1, p.2 ++ s)) (scanExp x) := by
  have hd : ∀ c, s.head? = some c → c.isDigit = false :=
    fun c hc => (isWS_not_special c (hs c hc)).1
  have hscan_s : scanDigits s = ([], s) := by
    unfold scanDigits
    cases s with
    | nil => rfl
    | cons d ds => simp [List.takeWhile_cons, List.dropWhile_cons, hd d rfl]
  have hsign_s : scanSignInt s = (1, s) := by
    cases s with
    | nil => rfl
    | cons d ds =>
      have h := isWS_not_special d (hs d rfl)
      simp [scanSignInt, h.2.2.2.2.2.1, h.2.2.2.2.1]
  cases x with
  | nil =>
    cases s with
    | nil => rfl
    | cons d ds =>
      have h := isWS_not_special d (hs d rfl)
      have hne : ¬(d = 'e' ∨ d = 'E') := by
        push_neg
        exact ⟨h.2.2.1, h.2.2.2.1⟩
      rw [List.nil_append, scanExp_cons_ne d ds hne]
      rfl
  | cons c r =>
    by_cases hce : c = 'e' ∨ c = 'E'
    · rw [List.cons_append, scanExp_cons_e c (r ++ s) hce, scanExp_cons_e c r hce]
      cases r with
      | nil =>
        rw [List.nil_append, hsign_s]
        have h2 : scanDigits ((1 : ℤ), s).2 = ([], s) := hscan_s
        rw [h2]
        simp [scanSignInt, scanDigits]
      | cons d r2 =>
        rw [scanSignInt_append (d :: r2) s (by simp), scanDigits_append _ s hd]
        by_cases hemp : (scanDigits (scanSignInt (d :: r2)).2).1.isEmpty
        · simp [hemp]
        · simp [hemp]
    · rw [List.cons_append, scanExp_cons_ne c (r ++ s) hce, scanExp_cons_ne c r hce]
      rfl

/-! ### Composition of the full double extraction -/

theorem extractDouble_nil : extractDouble [] = none := rfl

theorem dropWS_idem (l : List Char) : dropWS (dropWS l) = dropWS l := by
  cases h : dropWS l with
  | nil => simp [dropWS]
  | cons c r =>
    have hc : isWS c = false := head_dropWhile_false isWS l c (by rw [show l.dropWhile isWS = dropWS l from rfl, h]; rfl)
    simp [dropWS, List.dropWhile_cons, hc]

theorem extractDouble_dropWS (l : List Char) :
    extractDouble (dropWS l) = extractDouble l := by
  simp only [extractDouble, dropWS_idem]

theorem firstToken_head_not_ws (l : List Char) :
    ∀ c, (firstToken l).head? = some c → isWS c = false := by
  intro c h
  have := head_takeWhile_true (fun c => !(isWS c)) (dropWS l) c h
  simpa using this

theorem afterFirstToken_head_ws (l : List Char) :
    ∀ c, (afterFirstToken l).head? = some c → isWS c = true := by
  intro c h
  have := head_dropWhile_false (fun c => !(isWS c)) (dropWS l) c h
  simpa using this

theorem dropWS_eq_firstToken_append (l : List Char) :
    dropWS l = firstToken l ++ afterFirstToken l := by
  simp only [firstToken, afterFirstToken, extractString]
  rw [List.takeWhile_append_dropWhile]

theorem dropWS_eq_nil_of_firstToken_nil (l : List Char) (h : firstToken l = []) :
    dropWS l = [] := by
  cases hdl : dropWS l with
  | nil => rfl
  | cons c r =>
    have hc : isWS c = false := head_dropWhile_false isWS l c (by rw [show l.dropWhile isWS = dropWS l from rfl, hdl]; rfl)
    exfalso
    simp only [firstToken, extractString] at h
    rw [show dropWS l = c :: r from hdl] at h
    simp [List.takeWhile_cons, hc] at h

theorem extractDouble_append (tok s : List Char) (hne : tok ≠ [])
    (hh : ∀ c, tok.head? = some c → isWS c = false)
    (hs : ∀ c, s.head? = some c → isWS c = true) :
    extractDouble (tok ++ s) =
      Option.map (fun p => (p.1, p.2 ++ s)) (extractDouble tok) := by
  have hdrop : dropWS (tok ++ s) = tok ++ s := by
    cases tok with
    | nil => exact absurd rfl hne
    | cons c r => simp [dropWS, List.dropWhile_cons, hh c rfl]
  have hdrop2 : dropWS tok = tok := by
    cases tok with
    | nil => exact absurd rfl hne
    | cons c r => simp [dropWS, List.dropWhile_cons, hh c rfl]
  have hd : ∀ c, s.head? = some c → c.isDigit = false :=
    fun c hc => (isWS_not_special c (hs c hc)).1
  simp only [extractDouble, hdrop, hdrop2, scanSign_append tok s hne,
    scanDigits_append (scanSign tok).2 s hd,
    scanFrac_append (scanDigits (scanSign tok).2).2 s hs,
    scanExp_append (scanFrac (scanDigits (scanSign tok).2).2).2 s hs]
  by_cases hc :
      ((scanDigits (scanSign tok).2).1.isEmpty &&
        (scanFrac (scanDigits (scanSign tok).2).2).1.isEmpty) = true
  · simp [hc]
  · cases hex : scanExp (scanFrac (scanDigits (scanSign tok).2).2).2 with
    | none => simp [hc, hex]
    | some ex => simp [hc, hex]

theorem extractDouble_of_firstToken_full (l : List Char)
    (h : parsesAsDouble (firstToken l) = true) :
    extractDouble l = some (doubleVal (firstToken l), afterFirstToken l) := by
  unfold parsesAsDouble at h
  cases he : extractDouble (firstToken l) with
  | none => rw [he] at h; simp at h
  | some p =>
    rw [he] at h
    have hrest : p.2 = [] := by simpa using h
    have hne : firstToken l ≠ [] := by
      intro h0
      rw [h0, extractDouble_nil] at he
      exact Option.noConfusion he
    have happ := extractDouble_append (firstToken l) (afterFirstToken l) hne
      (firstToken_head_not_ws l) (afterFirstToken_head_ws l)
    rw [← extractDouble_dropWS l, dropWS_eq_firstToken_append l, happ, he]
    simp [doubleVal, he, hrest]

theorem extractDouble_none_of_firstToken (l : List Char)
    (h : extractDouble (firstToken l) = none) :
    extractDouble l = none := by
  by_cases hne : firstToken l = []
  · rw [← extractDouble_dropWS l, dropWS_eq_nil_of_firstToken_nil l hne, extractDouble_nil]
  · have happ := extractDouble_append (firstToken l) (afterFirstToken l) hne
      (firstToken_head_not_ws l) (afterFirstToken_head_ws l)
    rw [← extractDouble_dropWS l, dropWS_eq_firstToken_append l, happ, h]
    rfl

/-! ### Line-level characterisation of `LoadImages` (claim-side form).
`specCond` / `specEntry` restate, in the spec's whitespace-token
vocabulary, which lines yield an entry and what the entry is; they are
compared against `processLine`, the embedding of the source loop. -/

def specCond (l : List Char) : Bool :=
  decide (l ≠ [] ∧ l.head? ≠ some '#' ∧ secondToken l ≠ [])

def specEntry (l : List Char) : Option (ℚ × List Char) :=
  if specCond l then some (doubleVal (firstToken l), secondToken l) else none

theorem specEntry_isSome (l : List Char) : (specEntry l).isSome = specCond l := by
  unfold specEntry
  by_cases h : specCond l = true <;> simp [h]

theorem processLine_eq_specEntry (l : List Char)
    (h : l ≠ [] → l.head? ≠ some '#' → parsesAsDouble (firstToken l) = true) :
    processLine l = specEntry l := by
  cases l with
  | nil => simp [processLine, specEntry, specCond]
  | cons c r =>
    by_cases hc : c = '#'
    · subst hc
      simp [processLine, specEntry, specCond]
    · have hp := h (by simp) (by simp [hc])
      have he := extractDouble_of_firstToken_full (c :: r) hp
      simp only [processLine, if_neg hc, he]
      have hsec : (extractString (afterFirstToken (c :: r))).1 = secondToken (c :: r) := rfl
      by_cases hs2 : secondToken (c :: r) = []
      · simp [hsec, hs2, specEntry, specCond]
      · simp [hsec, hs2, specEntry, specCond, hc]

theorem loadImagesLoop_eq_filterMap (ls : List (List Char))
    (h : ∀ l ∈ ls, l ≠ [] → l.head? ≠ some '#' → parsesAsDouble (firstToken l) = true) :
    loadImagesLoop ls =
      ((ls.filterMap specEntry).map Prod.fst, (ls.filterMap specEntry).map Prod.snd) := by
  induction ls with
  | nil => rfl
  | cons l ls ih =>
    have hl := processLine_eq_specEntry l (h l (by simp))
    have ih' := ih (fun x hx => h x (by simp [hx]))
    simp only [loadImagesLoop, hl, List.filterMap_cons]
    cases hse : specEntry l with
    | none => simpa [hse] using ih'
    | some e => simp [hse, ih']

theorem length_loadImagesLoop_eq_countP (ls : List (List Char))
    (h : ∀ l ∈ ls, l ≠ [] → l.head? ≠ some '#' → parsesAsDouble (firstToken l) = true) :
    (loadImagesLoop ls).2.length = ls.countP specCond := by
  induction ls with
  | nil => rfl
  | cons l ls ih =>
    have hl := processLine_eq_specEntry l (h l (by simp))
    have ih' := ih (fun x hx => h x (by simp [hx]))
    cases hb : specCond l <;>
      simp [loadImagesLoop, hl, specEntry, hb, List.countP_cons, ih']

/-! ### The expected loop trace (claim-side form).
`iterEvents` restates what one iteration of the main loop is claimed to
do — one `TrackMonocular` call on the (possibly resized) frame, then a
suspension of `T - duration` exactly when `duration < T`, with `T` the
claimed pacing formula — and `expectedTrace` strings the iterations
together; they are compared against `runFrom`, the embedding of the
source loop. -/

def iterEvents (n : ℕ) (ts : List ℚ) (scale : ℚ) (dur : ℕ → ℚ) (img : ℕ → Image)
    (i : ℕ) : List Event :=
  let tframe := ts.getD i 0
  let T : ℚ :=
    if i < n - 1 then ts.getD (i + 1) 0 - tframe
    else if 0 < i then tframe - ts.getD (i - 1) 0
    else 0
  Event.track i tframe (if scale ≠ 1 then resizeIm (img i) scale else img i) ::
    (if dur i < T then [Event.sleep (T - dur i)] else [])

def expectedTrace (n : ℕ) (ts : List ℚ) (scale : ℚ) (dur : ℕ → ℚ) (img : ℕ → Image) :
    ℕ → ℕ → List Event
  | _, 0 => []
  | i, k + 1 => iterEvents n ts scale dur img i ++ expectedTrace n ts scale dur img (i + 1) k

theorem runFrom_eq_expected (n : ℕ) (files : List (List Char)) (ts : List ℚ)
    (imread : List Char → Option Image) (scale : ℚ) (dur : ℕ → ℚ) (img : ℕ → Image)
    (i k : ℕ)
    (hdec : ∀ j, j < k → imread (files.getD (i + j) []) = some (img (i + j))) :
    runFrom n files ts imread scale dur i k =
      (expectedTrace n ts scale dur img i k, none) := by
  induction k generalizing i with
  | zero => simp [runFrom, expectedTrace]
  | succ k ih =>
    have h0 : imread (files.getD i []) = some (img i) := by
      have := hdec 0 (Nat.succ_pos k)
      simpa using this
    have ih' := ih (i + 1) (fun j hj => by
      have := hdec (j + 1) (by omega)
      rwa [show i + (j + 1) = i + 1 + j by omega] at this)
    simp only [runFrom]
    rw [h0]
    simp [expectedTrace, iterEvents, ih']

theorem runFrom_eq_fail (n : ℕ) (files : List (List Char)) (ts : List ℚ)
    (imread : List Char → Option Image) (scale : ℚ) (dur : ℕ → ℚ) (img : ℕ → Image)
    (i k f : ℕ) (hfk : f < k)
    (hdec : ∀ j, j < f → imread (files.getD (i + j) []) = some (img (i + j)))
    (hfail : imread (files.getD (i + f) []) = none) :
    runFrom n files ts imread scale dur i k =
      (expectedTrace n ts scale dur img i f, some (files.getD (i + f) [])) := by
  induction f generalizing i k with
  | zero =>
    cases k with
    | zero => omega
    | succ k =>
      rw [Nat.add_zero] at hfail
      simp only [runFrom]
      rw [hfail]
      simp [expectedTrace]
  | succ f ih =>
    cases k with
    | zero => omega
    | succ k =>
      have h0 : imread (files.getD i []) = some (img i) := by
        have := hdec 0 (Nat.succ_pos f)
        simpa using this
      have ih' := ih (i + 1) k (by omega)
        (fun j hj => by
          have := hdec (j + 1) (by omega)
          rwa [show i + (j + 1) = i + 1 + j by omega] at this)
        (by rwa [show i + 1 + f = i + (f + 1) by omega])
      simp only [runFrom]
      rw [h0]
      simp only [expectedTrace]
      rw [ih', show i + 1 + f = i + (f + 1) by omega]
      simp [iterEvents]

theorem mem_expectedTrace (n : ℕ) (ts : List ℚ) (scale : ℚ) (dur : ℕ → ℚ)
    (img : ℕ → Image) (i k : ℕ) (ev : Event)
    (h : ev ∈ expectedTrace n ts scale dur img i k) :
    (∃ j, i ≤ j ∧ j < i + k ∧
      ev = Event.track j (ts.getD j 0)
        (if scale ≠ 1 then resizeIm (img j) scale else img j)) ∨
    (∃ a, ev = Event.sleep a) := by
  induction k generalizing i with
  | zero => simp [expectedTrace] at h
  | succ k ih =>
    simp only [expectedTrace, List.mem_append] at h
    rcases h with h | h
    · simp only [iterEvents, List.mem_cons] at h
      rcases h with h | h
      · exact Or.inl ⟨i, le_refl i, by omega, h⟩
      · right
        split_ifs at h <;> simp at h <;> exact ⟨_, h⟩
    · rcases ih (i + 1) h with ⟨j, hj1, hj2, hj3⟩ | hs
      · exact Or.inl ⟨j, by omega, by omega, hj3⟩
      · exact Or.inr hs

/-! ### Whole-run characterisations of `mainRun` -/

theorem mainRun_eq_success (name : List Char) (ls : List (List Char))
    (imread : List Char → Option Image) (scale : ℚ) (dur : ℕ → ℚ) (img : ℕ → Image)
    (ts : List ℚ) (files : List (List Char))
    (hload : LoadImages (some ls) = (ts, files))
    (hn : 1 ≤ files.length)
    (hdec : ∀ j, j < files.length → imread (files.getD j []) = some (img j)) :
    mainRun name (some ls) imread scale dur =
      { trace := Event.engineStart ::
          (expectedTrace files.length ts scale dur img 0 files.length ++
            [Event.shutdown, Event.saveKeyFrameTrajectory, Event.saveCameraTrajectory])
        exitCode := 0
        stats := some
          ((List.insertionSort (fun a b => a ≤ b) ((List.range files.length).map dur)).getD
              (files.length / 2) 0,
            ((List.insertionSort (fun a b => a ≤ b)
                ((List.range files.length).map dur)).foldl (fun a b => a + b) 0) /
              (files.length : ℚ))
        stderrLines := [] } := by
  have hrun := runFrom_eq_expected files.length files ts imread scale dur img 0 files.length
    (fun j hj => by simpa using hdec j hj)
  simp only [mainRun, hload]
  rw [if_neg (by omega)]
  rw [hrun]
  simp

theorem mainRun_eq_fail (name : List Char) (ls : List (List Char))
    (imread : List Char → Option Image) (scale : ℚ) (dur : ℕ → ℚ) (img : ℕ → Image)
    (ts : List ℚ) (files : List (List Char)) (f : ℕ)
    (hload : LoadImages (some ls) = (ts, files))
    (hf : f < files.length)
    (hdec : ∀ j, j < f → imread (files.getD j []) = some (img j))
    (hfail : imread (files.getD f []) = none) :
    mainRun name (some ls) imread scale dur =
      { trace := Event.engineStart :: expectedTrace files.length ts scale dur img 0 f
        exitCode := 1
        stats := none
        stderrLines := [msgFailedLoad (files.getD f [])] } := by
  have hrun := runFrom_eq_fail files.length files ts imread scale dur img 0 files.length f hf
    (fun j hj => by simpa using hdec j hj) (by simpa using hfail)
  simp only [mainRun, hload]
  rw [if_neg (by omega)]
  rw [hrun]
  simp

theorem mainRun_none_eq (name : List Char) (imread : List Char → Option Image)
    (scale : ℚ) (dur : ℕ → ℚ) :
    mainRun name none imread scale dur =
      { trace := [], exitCode := 1, stats := none
        stderrLines := [msgCannotOpen name, msgNoImages] } := by
  simp [mainRun, LoadImages]

theorem loadImagesLoop_eq_nil (ls : List (List Char))
    (h : ∀ l ∈ ls, processLine l = none) :
    loadImagesLoop ls = ([], []) := by
  induction ls with
  | nil => rfl
  | cons l ls ih =>
    have hl := h l (by simp)
    simp only [loadImagesLoop, hl]
    exact ih (fun x hx => h x (by simp [hx]))

theorem mainRun_empty_eq (name : List Char) (ls : List (List Char))
    (imread : List Char → Option Image) (scale : ℚ) (dur : ℕ → ℚ)
    (h : ∀ l ∈ ls, processLine l = none) :
    mainRun name (some ls) imread scale dur =
      { trace := [], exitCode := 1, stats := none, stderrLines := [msgNoImages] } := by
  have hload : LoadImages (some ls) = ([], []) := loadImagesLoop_eq_nil ls h
  simp [mainRun, hload]

/-! ### Auxiliary facts for the claims -/

theorem extractDouble_hash (rest : List Char) : extractDouble ('#' :: rest) = none := by
  have h1 : isWS '#' = false := by decide
  have h2 : Char.isDigit '#' = false := by decide
  simp [extractDouble, dropWS, scanSign, scanFrac, scanDigits,
    List.dropWhile_cons, List.takeWhile_cons, h1, h2]

theorem processLine_none_of_cases (l : List Char)
    (h : l = [] ∨ l.head? = some '#' ∨ extractedPath l = []) :
    processLine l = none := by
  rcases h with rfl | h | h
  · rfl
  · cases l with
    | nil => rfl
    | cons c r =>
      simp only [List.head?_cons, Option.some.injEq] at h
      simp [processLine, h]
  · cases l with
    | nil => rfl
    | cons c r =>
      by_cases hc : c = '#'
      · simp [processLine, hc]
      · simp only [processLine, if_neg hc]
        cases he : extractDouble (c :: r) with
        | none => rfl
        | some p =>
          simp only [extractedPath, he] at h
          simp [h]

theorem loadImagesLoop_skip (l : List Char) (hpl : processLine l = none)
    (pre post : List (List Char)) :
    loadImagesLoop (pre ++ l :: post) = loadImagesLoop (pre ++ post) := by
  induction pre with
  | nil => simp [loadImagesLoop, hpl]
  | cons p pre ih =>
    cases hp : processLine p <;> simp [loadImagesLoop, hp, ih]

theorem trunc_half (r : ℕ) : (truncInt ((r : ℚ) * (1 / 2))).toNat = r / 2 := by
  have h0 : (0 : ℚ) ≤ (r : ℚ) * (1 / 2) := by positivity
  rw [truncInt, if_pos h0]
  have hmod : 2 * (r / 2) + r % 2 = r := Nat.div_add_mod r 2
  have hlt : r % 2 < 2 := Nat.mod_lt _ (by norm_num)
  have hcast : (r : ℚ) = 2 * ((r / 2 : ℕ) : ℚ) + ((r % 2 : ℕ) : ℚ) := by
    exact_mod_cast hmod.symm
  have hq : (((r / 2 : ℕ) : ℤ) : ℚ) = ((r / 2 : ℕ) : ℚ) := by
    exact_mod_cast rfl
  have hfl : ⌊(r : ℚ) * (1 / 2)⌋ = ((r / 2 : ℕ) : ℤ) := by
    rw [Int.floor_eq_iff]
    constructor
    · rw [hq, hcast]
      have hm0 : (0 : ℚ) ≤ ((r % 2 : ℕ) : ℚ) := Nat.cast_nonneg _
      linarith
    · rw [hq, hcast]
      have hm2 : ((r % 2 : ℕ) : ℚ) < 2 := by exact_mod_cast hlt
      linarith
  rw [hfl, Int.toNat_natCast]

theorem extractDouble_none_of_dropWS_hash (l : List Char)
    (h : (l.dropWhile (fun c => isWS c)).head? = some '#') :
    extractDouble l = none := by
  rw [← extractDouble_dropWS l]
  cases hdl : dropWS l with
  | nil =>
    rw [show l.dropWhile (fun c => isWS c) = dropWS l from rfl, hdl] at h
    simp at h
  | cons d rest =>
    rw [show l.dropWhile (fun c => isWS c) = dropWS l from rfl, hdl] at h
    simp only [List.head?_cons, Option.some.injEq] at h
    subst h
    exact hdl ▸ extractDouble_hash rest

/-! ### Claims about `LoadImages` -/

/-- C7: a line that is empty, or whose first non-whitespace character is
`#`, never yields an entry: `processLine` drops it, and removing the
line from a manifest leaves the two output vectors of the loading loop
unchanged, regardless of the line's remaining content. -/
theorem C7_comment_blank_skipped (l : List Char)
    (h : l = [] ∨ (l.dropWhile (fun c => isWS c)).head? = some '#') :
    processLine l = none ∧
    ∀ pre post : List (List Char),
      loadImagesLoop (pre ++ l :: post) = loadImagesLoop (pre ++ post) := by
  have hpl : processLine l = none := by
    rcases h with rfl | h
    · rfl
    · cases l with
      | nil => rfl
      | cons c r =>
        by_cases hc : c = '#'
        · simp [processLine, hc]
        · simp only [processLine, if_neg hc]
          rw [extractDouble_none_of_dropWS_hash (c :: r) h]
  exact ⟨hpl, fun pre post => loadImagesLoop_skip l hpl pre post⟩

/-- C7 witness: the concrete line `"  # comment"` is skipped. -/
theorem C7_witness :
    ((("  # comment".toList : List Char) = [] ∨
      (("  # comment".toList : List Char).dropWhile (fun c => isWS c)).head? = some '#') ∧
      processLine "  # comment".toList = none) :=
  ⟨by decide, (C7_comment_blank_skipped "  # comment".toList (by decide)).1⟩

/-- C9: a non-empty, non-comment line whose first whitespace-delimited
token does not parse as a floating-point number (the stream's numeric
extraction fails on it) yields no entry: the whole-line extraction
fails, the extracted path string stays empty, the line is dropped, and
removing it from a manifest leaves the loading loop's output
unchanged. -/
theorem C9_unparsable_timestamp_skipped (l : List Char)
    (h1 : l ≠ []) (h2 : l.head? ≠ some '#')
    (h3 : extractDouble (firstToken l) = none) :
    extractDouble l = none ∧ extractedPath l = [] ∧ processLine l = none ∧
    ∀ pre post : List (List Char),
      loadImagesLoop (pre ++ l :: post) = loadImagesLoop (pre ++ post) := by
  have hed := extractDouble_none_of_firstToken l h3
  have hep : extractedPath l = [] := by simp [extractedPath, hed]
  have hpl : processLine l = none := by
    cases l with
    | nil => exact absurd rfl h1
    | cons c r =>
      have hc : c ≠ '#' := by
        intro hc
        exact h2 (by simp [hc])
      simp [processLine, hc, hed]
  exact ⟨hed, hep, hpl, fun pre post => loadImagesLoop_skip l hpl pre post⟩

/-- C9 witness: the concrete line `"3.5e img.png"` — whose first token
has a dangling exponent marker, so the numeric extraction fails on
it — is dropped. -/
theorem C9_witness :
    (("3.5e img.png".toList : List Char) ≠ [] ∧
      ("3.5e img.png".toList : List Char).head? ≠ some '#' ∧
      extractDouble (firstToken "3.5e img.png".toList) = none) ∧
      processLine "3.5e img.png".toList = none :=
  ⟨⟨by decide, by decide, by decide⟩,
    (C9_unparsable_timestamp_skipped "3.5e img.png".toList
      (by decide) (by decide) (by decide)).2.2.1⟩

/-- C8: `LoadImages` always returns a timestamp vector and a filename
vector of equal length — whether the file opens or not, well-formed or
not — and the equality already holds after processing any prefix of the
lines (each line appends to both vectors or to neither). -/
theorem C8_parallel_lengths :
    (∀ assoc : Option (List (List Char)),
      (LoadImages assoc).1.length = (LoadImages assoc).2.length) ∧
    (∀ (ls : List (List Char)) (k : ℕ),
      (loadImagesLoop (ls.take k)).1.length = (loadImagesLoop (ls.take k)).2.length) := by
  have hloop : ∀ ls : List (List Char),
      (loadImagesLoop ls).1.length = (loadImagesLoop ls).2.length := by
    intro ls
    induction ls with
    | nil => rfl
    | cons l ls ih => cases hp : processLine l <;> simp [loadImagesLoop, hp, ih]
  constructor
  · intro assoc
    cases assoc with
    | none => rfl
    | some ls => exact hloop ls
  · intro ls k
    exact hloop _

/-- C2: on a well-formed manifest (each non-comment, non-empty line's
first whitespace token fully parses as a floating-point literal), the
loading loop returns exactly the per-line entries `specEntry`, in file
order: one entry per non-empty, non-`#` line with a non-empty second
whitespace token, carrying the parsed first token as the timestamp and
the second token verbatim as the path (later tokens ignored); the entry
count equals the count of such lines. -/
theorem C2_wellformed_manifest (ls : List (List Char))
    (hwf : ∀ l ∈ ls, l ≠ [] → l.head? ≠ some '#' → parsesAsDouble (firstToken l) = true) :
    loadImagesLoop ls =
      ((ls.filterMap specEntry).map Prod.fst, (ls.filterMap specEntry).map Prod.snd) ∧
    (loadImagesLoop ls).2.length = ls.countP specCond ∧
    (∀ l, specEntry l =
      if specCond l then some (doubleVal (firstToken l), secondToken l) else none) ∧
    (∀ l, specCond l = decide (l ≠ [] ∧ l.head? ≠ some '#' ∧ secondToken l ≠ [])) :=
  ⟨loadImagesLoop_eq_filterMap ls hwf, length_loadImagesLoop_eq_countP ls hwf,
    fun _ => rfl, fun _ => rfl⟩

/-- C2 witness: a concrete five-line manifest with comments, a blank
line, a line without a path, and two data lines. -/
theorem C2_witness :
    (∀ l ∈ [("# hdr".toList : List Char), "".toList, "0.5 a.png x".toList,
        "1.5".toList, "2.25 b.png".toList],
      l ≠ [] → l.head? ≠ some '#' → parsesAsDouble (firstToken l) = true) ∧
    (loadImagesLoop ["# hdr".toList, "".toList, "0.5 a.png x".toList,
        "1.5".toList, "2.25 b.png".toList]).2.length =
      List.countP specCond ["# hdr".toList, "".toList, "0.5 a.png x".toList,
        "1.5".toList, "2.25 b.png".toList] :=
  ⟨by decide,
    (C2_wellformed_manifest ["# hdr".toList, "".toList, "0.5 a.png x".toList,
      "1.5".toList, "2.25 b.png".toList] (by decide)).2.1⟩

/-- C4: when the association file cannot be opened, `LoadImages`
produces no entries and the run stops with exit code 1, an error line,
and no events at all (in particular the engine is never constructed);
the same happens for a file whose every line is blank, a comment, or
leaves the extracted path string empty. -/
theorem C4_open_failure_or_empty (name : List Char) (ls : List (List Char))
    (imread : List Char → Option Image) (scale : ℚ) (dur : ℕ → ℚ)
    (h : ∀ l ∈ ls, l = [] ∨ l.head? = some '#' ∨ extractedPath l = []) :
    LoadImages none = ([], []) ∧
    mainRun name none imread scale dur =
      { trace := [], exitCode := 1, stats := none
        stderrLines := [msgCannotOpen name, msgNoImages] } ∧
    mainRun name (some ls) imread scale dur =
      { trace := [], exitCode := 1, stats := none, stderrLines := [msgNoImages] } ∧
    Event.engineStart ∉ (mainRun name none imread scale dur).trace ∧
    Event.engineStart ∉ (mainRun name (some ls) imread scale dur).trace := by
  have hempty := mainRun_empty_eq name ls imread scale dur
    (fun l hl => processLine_none_of_cases l (h l hl))
  refine ⟨rfl, mainRun_none_eq name imread scale dur, hempty, ?_, ?_⟩
  · rw [mainRun_none_eq name imread scale dur]
    simp
  · rw [hempty]
    simp

/-- C4 witness: a concrete manifest of skipped lines only, including a
line whose first token has a dangling exponent marker (its failed
extraction leaves the path string empty). -/
theorem C4_witness :
    (∀ l ∈ [("# c".toList : List Char), "".toList, "abc".toList, "1.5".toList,
        "3.5e wreck.png".toList],
      l = [] ∨ l.head? = some '#' ∨ extractedPath l = []) ∧
    mainRun "a.txt".toList (some ["# c".toList, "".toList, "abc".toList, "1.5".toList,
        "3.5e wreck.png".toList])
        (fun _ => some { rows := 512, cols := 640 }) 1 (fun _ => 0) =
      { trace := [], exitCode := 1, stats := none, stderrLines := [msgNoImages] } :=
  ⟨by decide,
    (C4_open_failure_or_empty "a.txt".toList
      ["# c".toList, "".toList, "abc".toList, "1.5".toList, "3.5e wreck.png".toList]
      (fun _ => some { rows := 512, cols := 640 }) 1 (fun _ => 0) (by decide)).2.2.1⟩

/-! ### Concrete fixtures used by the witnesses -/

def wName : List Char := "associations.txt".toList

def wLines : List (List Char) := ["0.0 img0.png".toList, "0.1 img1.png".toList]

def wTs : List ℚ := [doubleVal "0.0".toList, doubleVal "0.1".toList]

def wFiles : List (List Char) := ["img0.png".toList, "img1.png".toList]

def wImread : List Char → Option Image := fun _ => some { rows := 512, cols := 640 }

def wImg : ℕ → Image := fun _ => { rows := 512, cols := 640 }

def wDur : ℕ → ℚ := fun _ => 0

def wImreadFail : List Char → Option Image :=
  fun p => if p = "img1.png".toList then none else some { rows := 512, cols := 640 }

theorem wLoad : LoadImages (some wLines) = (wTs, wFiles) := rfl

/-! ### Claims about the driver loop -/

/-- C1: for every iteration `i` of the main loop over `n` entries (all
of whose images decode), the loop's trace is exactly one block per
iteration, where block `i` is the `TrackMonocular` event followed by a
suspension of `T - duration i` if and only if `duration i < T`, with
`T = ts[i+1] - ts[i]` when `i` is not last, else `T = ts[i] - ts[i-1]`
when `i > 0`, else `T = 0` (second conjunct spells the block out). -/
theorem C1_pacing (n : ℕ) (files : List (List Char)) (ts : List ℚ)
    (imread : List Char → Option Image) (scale : ℚ) (dur : ℕ → ℚ) (img : ℕ → Image)
    (hdec : ∀ j, j < n → imread (files.getD j []) = some (img j)) :
    runFrom n files ts imread scale dur 0 n =
      (expectedTrace n ts scale dur img 0 n, none) ∧
    ∀ i, iterEvents n ts scale dur img i =
      Event.track i (ts.getD i 0)
          (if scale ≠ 1 then resizeIm (img i) scale else img i) ::
        (if dur i <
            (if i < n - 1 then ts.getD (i + 1) 0 - ts.getD i 0
              else if 0 < i then ts.getD i 0 - ts.getD (i - 1) 0 else 0) then
          [Event.sleep
            ((if i < n - 1 then ts.getD (i + 1) 0 - ts.getD i 0
               else if 0 < i then ts.getD i 0 - ts.getD (i - 1) 0 else 0) - dur i)]
          else []) :=
  ⟨runFrom_eq_expected n files ts imread scale dur img 0 n
      (fun j hj => by simpa using hdec j hj),
    fun _ => rfl⟩

/-- C1 witness: a concrete two-frame run. -/
theorem C1_witness :
    (∀ j, j < 2 → wImread (wFiles.getD j []) = some (wImg j)) ∧
    runFrom 2 wFiles wTs wImread 1 wDur 0 2 =
      (expectedTrace 2 wTs 1 wDur wImg 0 2, none) :=
  ⟨by decide, (C1_pacing 2 wFiles wTs wImread 1 wDur wImg (by decide)).1⟩

/-- C3: if the image of manifest entry `f` fails to decode (all earlier
ones decoding), the run exits with code 1 and an error line naming that
image path, reports no statistics, invokes tracking only for entries
before `f`, and triggers neither shutdown nor either trajectory
export. -/
theorem C3_decode_failure_aborts (name : List Char) (ls : List (List Char))
    (imread : List Char → Option Image) (scale : ℚ) (dur : ℕ → ℚ) (img : ℕ → Image)
    (ts : List ℚ) (files : List (List Char)) (f : ℕ)
    (hload : LoadImages (some ls) = (ts, files))
    (hf : f < files.length)
    (hdec : ∀ j, j < f → imread (files.getD j []) = some (img j))
    (hfail : imread (files.getD f []) = none) :
    (mainRun name (some ls) imread scale dur).exitCode = 1 ∧
    (mainRun name (some ls) imread scale dur).stats = none ∧
    (mainRun name (some ls) imread scale dur).stderrLines =
      [msgFailedLoad (files.getD f [])] ∧
    (∀ j t im, Event.track j t im ∈ (mainRun name (some ls) imread scale dur).trace →
      j < f) ∧
    Event.shutdown ∉ (mainRun name (some ls) imread scale dur).trace ∧
    Event.saveKeyFrameTrajectory ∉ (mainRun name (some ls) imread scale dur).trace ∧
    Event.saveCameraTrajectory ∉ (mainRun name (some ls) imread scale dur).trace := by
  have hm := mainRun_eq_fail name ls imread scale dur img ts files f hload hf hdec hfail
  rw [hm]
  refine ⟨rfl, rfl, rfl, ?_, ?_, ?_, ?_⟩
  · intro j t im hmem
    simp only [List.mem_cons] at hmem
    rcases hmem with h | h
    · simp at h
    · rcases mem_expectedTrace files.length ts scale dur img 0 f _ h with
        ⟨j', _, hj2, hj3⟩ | ⟨a, ha⟩
      · injection hj3 with e1 e2 e3
        omega
      · simp at ha
  · intro hmem
    simp only [List.mem_cons] at hmem
    rcases hmem with h | h
    · simp at h
    · rcases mem_expectedTrace files.length ts scale dur img 0 f _ h with
        ⟨j', _, _, hj3⟩ | ⟨a, ha⟩
      · simp at hj3
      · simp at ha
  · intro hmem
    simp only [List.mem_cons] at hmem
    rcases hmem with h | h
    · simp at h
    · rcases mem_expectedTrace files.length ts scale dur img 0 f _ h with
        ⟨j', _, _, hj3⟩ | ⟨a, ha⟩
      · simp at hj3
      · simp at ha
  · intro hmem
    simp only [List.mem_cons] at hmem
    rcases hmem with h | h
    · simp at h
    · rcases mem_expectedTrace files.length ts scale dur img 0 f _ h with
        ⟨j', _, _, hj3⟩ | ⟨a, ha⟩
      · simp at hj3
      · simp at ha

/-- C3 witness: a concrete run whose second image fails to decode. -/
theorem C3_witness :
    (LoadImages (some wLines) = (wTs, wFiles) ∧
      1 < wFiles.length ∧
      (∀ j, j < 1 → wImreadFail (wFiles.getD j []) = some (wImg j)) ∧
      wImreadFail (wFiles.getD 1 []) = none) ∧
    (mainRun wName (some wLines) wImreadFail 1 wDur).exitCode = 1 :=
  ⟨⟨wLoad, by decide, by decide, by decide⟩,
    (C3_decode_failure_aborts wName wLines wImreadFail 1 wDur wImg wTs wFiles 1
      wLoad (by decide) (by decide) (by decide)).1⟩

/-- C5: a run with `n ≥ 1` entries that reaches shutdown reports as
median the element at index `n / 2` (integer division) of the
ascending-sorted sequence of all `n` timing samples, and as mean the
sum of all samples divided by `n`. -/
theorem C5_stats_sorted_median_mean (name : List Char) (ls : List (List Char))
    (imread : List Char → Option Image) (scale : ℚ) (dur : ℕ → ℚ) (img : ℕ → Image)
    (ts : List ℚ) (files : List (List Char))
    (hload : LoadImages (some ls) = (ts, files))
    (hn : 1 ≤ files.length)
    (hdec : ∀ j, j < files.length → imread (files.getD j []) = some (img j)) :
    ∃ sorted : List ℚ,
      List.Perm sorted ((List.range files.length).map dur) ∧
      List.Sorted (fun a b => a ≤ b) sorted ∧
      (mainRun name (some ls) imread scale dur).stats =
        some (sorted.getD (files.length / 2) 0,
          ((List.range files.length).map dur).sum / (files.length : ℚ)) := by
  have hm := mainRun_eq_success name ls imread scale dur img ts files hload hn hdec
  have hsum : (List.insertionSort (fun a b => a ≤ b)
      ((List.range files.length).map dur)).foldl (fun a b => a + b) 0 =
      ((List.range files.length).map dur).sum := by
    rw [← List.sum_eq_foldl]
    exact (List.perm_insertionSort _ _).sum_eq
  refine ⟨List.insertionSort (fun a b => a ≤ b) ((List.range files.length).map dur),
    List.perm_insertionSort _ _, List.sorted_insertionSort _ _, ?_⟩
  rw [hm]
  simp [hsum]

/-- C5 witness: a concrete two-frame successful run. -/
theorem C5_witness :
    (LoadImages (some wLines) = (wTs, wFiles) ∧
      1 ≤ wFiles.length ∧
      (∀ j, j < wFiles.length → wImread (wFiles.getD j []) = some (wImg j))) ∧
    (∃ sorted : List ℚ,
      List.Perm sorted ((List.range wFiles.length).map wDur) ∧
      List.Sorted (fun a b => a ≤ b) sorted ∧
      (mainRun wName (some wLines) wImread 1 wDur).stats =
        some (sorted.getD (wFiles.length / 2) 0,
          ((List.range wFiles.length).map wDur).sum / (wFiles.length : ℚ))) :=
  ⟨⟨wLoad, by decide, by decide⟩,
    C5_stats_sorted_median_mean wName wLines wImread 1 wDur wImg wTs wFiles
      wLoad (by decide) (by decide)⟩

/-- C6: every frame handed to the engine is the decoded image
unresized when the engine's image scale is 1, and otherwise has its
dimensions multiplied by the scale and truncated to integers; for
scale 1/2 both dimensions are halved with integer truncation. -/
theorem C6_uniform_resize (n : ℕ) (files : List (List Char)) (ts : List ℚ)
    (imread : List Char → Option Image) (scale : ℚ) (dur : ℕ → ℚ) (img : ℕ → Image)
    (hdec : ∀ j, j < n → imread (files.getD j []) = some (img j)) :
    ∀ ev ∈ (runFrom n files ts imread scale dur 0 n).1,
      ∀ i t im, ev = Event.track i t im →
        (scale = 1 → im = img i) ∧
        (scale ≠ 1 → im =
          { rows := (truncInt (((img i).rows : ℚ) * scale)).toNat
            cols := (truncInt (((img i).cols : ℚ) * scale)).toNat }) ∧
        (scale = 1 / 2 → im =
          { rows := (img i).rows / 2, cols := (img i).cols / 2 }) := by
  intro ev hmem i t im hev
  rw [runFrom_eq_expected n files ts imread scale dur img 0 n
    (fun j hj => by simpa using hdec j hj)] at hmem
  rcases mem_expectedTrace n ts scale dur img 0 n ev hmem with ⟨j, _, _, hj3⟩ | ⟨a, ha⟩
  · rw [hev] at hj3
    injection hj3 with e1 e2 e3
    subst e1
    subst e3
    refine ⟨?_, ?_, ?_⟩
    · intro h1
      simp [h1]
    · intro hne
      rw [if_pos hne]
      rfl
    · intro h12
      subst h12
      rw [if_pos (by norm_num)]
      show resizeIm (img i) (1 / 2) = _
      simp only [resizeIm, trunc_half]
  · rw [hev] at ha
    simp at ha

/-- C6 witness: a concrete run at scale 1/2. -/
theorem C6_witness :
    (∀ j, j < 2 → wImread (wFiles.getD j []) = some (wImg j)) ∧
    (∀ ev ∈ (runFrom 2 wFiles wTs wImread (1 / 2) wDur 0 2).1,
      ∀ i t im, ev = Event.track i t im →
        ((1 : ℚ) / 2 = 1 → im = wImg i) ∧
        ((1 : ℚ) / 2 ≠ 1 → im =
          { rows := (truncInt (((wImg i).rows : ℚ) * (1 / 2))).toNat
            cols := (truncInt (((wImg i).cols : ℚ) * (1 / 2))).toNat }) ∧
        ((1 : ℚ) / 2 = 1 / 2 → im =
          { rows := (wImg i).rows / 2, cols := (wImg i).cols / 2 })) :=
  ⟨by decide, C6_uniform_resize 2 wFiles wTs wImread (1 / 2) wDur wImg (by decide)⟩

/-- C10: whenever a run reports statistics, the number of loaded
entries `n` is at least 1, the median index `n / 2` is within the
bounds of the length-`n` sample sequence, and the mean's divisor is
nonzero. -/
theorem C10_stats_index_safe (name : List Char) (assoc : Option (List (List Char)))
    (imread : List Char → Option Image) (scale : ℚ) (dur : ℕ → ℚ)
    (h : (mainRun name assoc imread scale dur).stats ≠ none) :
    1 ≤ (LoadImages assoc).2.length ∧
    (LoadImages assoc).2.length / 2 < (LoadImages assoc).2.length ∧
    ((LoadImages assoc).2.length : ℚ) ≠ 0 := by
  have hn : 1 ≤ (LoadImages assoc).2.length := by
    by_contra hc
    push_neg at hc
    have h0 : (LoadImages assoc).2.length = 0 := by omega
    exact h (by simp [mainRun, h0])
  exact ⟨hn, Nat.div_lt_self (by omega) (by norm_num),
    Nat.cast_ne_zero.mpr (by omega)⟩

/-- C10 witness: a concrete successful run reports statistics. -/
theorem C10_witness :
    (mainRun wName (some wLines) wImread 1 wDur).stats ≠ none ∧
    1 ≤ (LoadImages (some wLines)).2.length := by
  have hstat : (mainRun wName (some wLines) wImread 1 wDur).stats ≠ none := by
    rw [mainRun_eq_success wName wLines wImread 1 wDur wImg wTs wFiles wLoad
      (by decide) (by decide)]
    simp
  exact ⟨hstat, (C10_stats_index_safe wName (some wLines) wImread 1 wDur hstat).1⟩

end MonoAqualoc
